import Mathlib

/- Verification development for the DepiGrad land-classification service.

   Shallow embedding of `src/models/predictor.py` and `src/app.py`.
   Machine floats are modelled by rationals (`ℚ`); the neural-network
   forward pass (`keras` `model.predict`) is an external collaborator and is
   represented by its raw output vector, carried as data (`ModelRun`). -/

/-- The ten EuroSAT land-cover class names (`CLASS_NAMES` in predictor.py). -/
def CLASS_NAMES : List String :=
  ["AnnualCrop", "Forest", "HerbaceousVegetation", "Highway", "Industrial",
   "Pasture", "PermanentCrop", "Residential", "River", "SeaLake"]

/-- One entry of `MODEL_CONFIG` in predictor.py. -/
structure ModelConfig where
  path : String
  name : String
  description : String
  input_shape : Nat × Nat × Nat
  channels : Nat

deriving instance DecidableEq for ModelConfig

/-- The static model registry (`MODEL_CONFIG` in predictor.py), in declaration
    order: rgb, rgb_nir, ndvi. -/
def MODEL_CONFIG : List (String × ModelConfig) :=
  [("rgb", ⟨"model_rgb_v0.h5", "RGB Model",
      "Uses standard RGB satellite imagery", (64, 64, 3), 3⟩),
   ("rgb_nir", ⟨"model_RGB_NIR_v0.h5", "RGB + NIR Model",
      "Uses RGB with Near-Infrared band for enhanced vegetation detection", (64, 64, 4), 4⟩),
   ("ndvi", ⟨"model_NDVI_v2.h5", "NDVI Model",
      "Uses Normalized Difference Vegetation Index for vegetation analysis", (64, 64, 1), 1⟩)]

/-- Python `int()` applied to a rational: truncation toward zero.
    (numpy's `int(...)` / `np.uint8` casts truncate the fractional part.) -/
def pyInt (q : ℚ) : ℤ := if q < 0 then -⌊-q⌋ else ⌊q⌋

/-- Python `round()` to the nearest integer: ties go to the even neighbour
    (banker's rounding), all other values to the nearest integer. -/
def roundHalfEven (q : ℚ) : ℤ :=
  if Int.fract q = 1/2 then (if ⌊q⌋ % 2 = 0 then ⌊q⌋ else ⌊q⌋ + 1) else round q

/-- Python `round(x, 2)`. -/
def round2 (q : ℚ) : ℚ := roundHalfEven (q * 100) / 100

/-- Python `round(x, 1)`. -/
def round1 (q : ℚ) : ℚ := roundHalfEven (q * 10) / 10

/-- Python `max(iterable, key=...)` over key/value pairs, seeded with the first
    element: scans left to right and replaces the current best only on a
    strictly larger value, so the first maximal element wins. -/
def pyMaxAux {α β : Type} [LinearOrder β] : (α × β) → List (α × β) → (α × β)
  | acc, [] => acc
  | acc, x :: xs => pyMaxAux (if acc.2 < x.2 then x else acc) xs

/-- `pyMaxAux` over a whole (possibly empty) list, as Python's
    `max(items, key=itemgetter(1))` with the first element as seed. -/
def pyMax1 {α β : Type} [LinearOrder β] : List (α × β) → Option (α × β)
  | [] => none
  | x :: xs => some (pyMaxAux x xs)

/-- Insertion into a descending-sorted pair list: the new element is placed
    before the first element whose value is not larger, so a stable descending
    sort results (Python `sorted(..., key=value, reverse=True)` is stable). -/
def sortInsert {α β : Type} [LinearOrder β] (x : α × β) :
    List (α × β) → List (α × β)
  | [] => [x]
  | y :: ys => if x.2 < y.2 then y :: sortInsert x ys else x :: y :: ys

/-- Stable descending sort by value, embedding
    `sorted(probabilities.items(), key=lambda x: x[1], reverse=True)`. -/
def sortDesc {α β : Type} [LinearOrder β] : List (α × β) → List (α × β)
  | [] => []
  | x :: xs => sortInsert x (sortDesc xs)

/-- Outcome of the external `keras` forward pass inside `predict`'s try block:
    either the raw output vector `model.predict(img)[0]`, or a raised
    exception carrying a message (caught and stringified by the code). -/
inductive ModelRun
  | output (raw : List ℚ)
  | raiseE (msg : String)

deriving instance DecidableEq for ModelRun

/-- The success payload of `LandClassifier.predict`. -/
structure PredictionOk where
  predicted_class : String
  confidence : ℚ
  probabilities : List (String × ℚ)
  model_used : String

deriving instance DecidableEq for PredictionOk

/-- Result dictionary of `LandClassifier.predict`:
    `{'success': True, ...}` or `{'success': False, 'error': msg}`. -/
inductive PredictResult
  | ok (r : PredictionOk)
  | fail (error : String)

deriving instance DecidableEq for PredictResult

/-- `MODEL_CONFIG[key]['name']` (keys used by the code are always present). -/
def modelName (key : String) : String :=
  match MODEL_CONFIG.lookup key with
  | some c => c.name
  | none => ""

/-- The error string of `predict`'s model-unavailable branch:
    `f'Model "{model_key}" not loaded'`. -/
def unavailableMsg (key : String) : String :=
  "Model \"" ++ key ++ "\" not loaded"

/-- The body of `predict`'s try block after the forward pass produced the raw
    vector `raw`: build `probabilities = {CLASS_NAMES[i]: raw[i]*100}`,
    sort descending (stable), take `max(probabilities, key=probabilities.get)`
    as top class, round its value to 2 decimals for `confidence`.
    A raw vector shorter than `CLASS_NAMES` raises `IndexError`, which the
    `except` clause converts into a failure result. -/
def predictFromRaw (key : String) (raw : List ℚ) : PredictResult :=
  if raw.length < CLASS_NAMES.length then .fail "list index out of range"
  else
    match List.zipWith (fun n p => (n, p * 100)) CLASS_NAMES raw with
    | [] => .fail "list index out of range"
    | p :: ps =>
      .ok ⟨(pyMaxAux p ps).1, round2 (pyMaxAux p ps).2, sortDesc (p :: ps),
           modelName key⟩

/-- `LandClassifier.predict`: the loaded-model set is the association list
    `models` (variant key to forward-pass outcome); a key outside it returns
    the not-loaded failure dictionary without raising, and the method reads
    `self.models` only, mutating nothing. -/
def predict (models : List (String × ModelRun)) (key : String) : PredictResult :=
  match models.lookup key with
  | none => .fail (unavailableMsg key)
  | some (.output raw) => predictFromRaw key raw
  | some (.raiseE e) => .fail e

/-- One entry of `get_available_models`'s result list. -/
structure ModelInfo where
  key : String
  name : String
  description : String
  loaded : Bool

deriving instance DecidableEq for ModelInfo

/-- `LandClassifier.get_available_models`: one entry per registry variant,
    `loaded` true exactly when the key is in the loaded-model dictionary. -/
def get_available_models (models : List (String × ModelRun)) : List ModelInfo :=
  MODEL_CONFIG.map (fun p =>
    ⟨p.1, p.2.name, p.2.description, decide (p.1 ∈ models.map Prod.fst)⟩)

example : predictFromRaw "rgb" [1, 0, 0, 0, 0, 0, 0, 0, 0, 0] =
    .ok ⟨"AnnualCrop", 100,
      [("AnnualCrop", 100), ("Forest", 0), ("HerbaceousVegetation", 0),
       ("Highway", 0), ("Industrial", 0), ("Pasture", 0), ("PermanentCrop", 0),
       ("Residential", 0), ("River", 0), ("SeaLake", 0)], "RGB Model"⟩ := by
  norm_num [predictFromRaw, CLASS_NAMES, pyMaxAux, sortDesc, sortInsert,
    round2, roundHalfEven, modelName, MODEL_CONFIG]

example : predict [] "rgb" = .fail "Model \"rgb\" not loaded" := by
  norm_num [predict, unavailableMsg]
  rfl

/-- First-occurrence-ordered distinct keys of a list: the iteration order of
    the keys of Python's `collections.Counter` built from that list. -/
def firstOccs : List String → List String
  | [] => []
  | x :: xs => x :: (firstOccs xs).filter (fun y => decide (y ≠ x))

/-- The items of `Counter(l)` in iteration order: each distinct key, first
    occurrence first, paired with its number of occurrences in `l`. -/
def counterItems (l : List String) : List (String × Nat) :=
  (firstOccs l).map (fun k => (k, l.count k))

/-- `Counter(l).most_common(1)[0][0]`: for `n = 1`, CPython's
    `heapq.nlargest` is `max(items, key=itemgetter(1))`, which returns the
    first item (in Counter iteration order) with the largest count. -/
def mostCommon1 (l : List String) : Option String :=
  match counterItems l with
  | [] => none
  | x :: xs => some (pyMaxAux x xs).1

/-- One value of the `results` dictionary built by `compare_all`: a success
    entry (model name, predicted class, confidence, probabilities) or an
    error entry (model name, error string). -/
inductive CmpEntry
  | pred (model_name predicted_class : String) (confidence : ℚ)
      (probabilities : List (String × ℚ))
  | err (model_name error : String)

deriving instance DecidableEq for CmpEntry

/-- Return value of `LandClassifier.compare_all`. -/
structure CompareResult where
  models : List (String × CmpEntry)
  consensus : Option String
  agreement : ℚ

deriving instance DecidableEq for CompareResult

/-- The per-variant entries `compare_all` records: it iterates
    `self.models.keys()` (loaded variants only, in registry insertion order)
    and calls `self.predict` for each. -/
def cmpResults (models : List (String × ModelRun)) : List (String × CmpEntry) :=
  models.map (fun p =>
    (p.1, match predict models p.1 with
      | .ok r => .pred (modelName p.1) r.predicted_class r.confidence r.probabilities
      | .fail e => .err (modelName p.1) e))

/-- `predictions = [r['predicted_class'] for r in results.values() if 'predicted_class' in r]`. -/
def cmpPredictions (models : List (String × ModelRun)) : List String :=
  (cmpResults models).filterMap (fun q =>
    match q.2 with
    | .pred _ c _ _ => some c
    | .err _ _ => none)

/-- `LandClassifier.compare_all`: per-loaded-variant results, consensus by
    `Counter(...).most_common(1)`, agreement
    `round(count/len*100, 1)`; with no successful prediction the consensus is
    `None` and the agreement 0. -/
def compare_all (models : List (String × ModelRun)) : CompareResult :=
  let preds := cmpPredictions models
  match mostCommon1 preds with
  | some c =>
    ⟨cmpResults models, some c, round1 ((preds.count c : ℚ) / preds.length * 100)⟩
  | none => ⟨cmpResults models, none, 0⟩

/-- An image as a numpy array produced by `np.array(img)`: either a 2-D
    grayscale array (rows of scalar samples) or a 3-D array (rows of pixels,
    each pixel a list of channel samples). -/
inductive RawImage
  | gray (px : List (List ℚ))
  | color (px : List (List (List ℚ)))

deriving instance DecidableEq for RawImage

/-- `np.mean` over the channel axis of one pixel. -/
def pxMean (cs : List ℚ) : ℚ := cs.sum / (cs.length : ℚ)

/-- The channel-adaptation block of `preprocess_image` (the
    `if model_key == 'ndvi' ... elif 'rgb' ... elif 'rgb_nir'` chain),
    acting pixelwise exactly as the numpy axis operations do.
    A source/target combination matched by no branch leaves the array
    unchanged: the code raises no error there. -/
def channelAdapt (key : String) (img : RawImage) : RawImage :=
  if key = "ndvi" then
    match img with
    | .color px => .color (px.map (fun row => row.map (fun cs => [pxMean cs])))
    | .gray px => .color (px.map (fun row => row.map (fun v => [v])))
  else if key = "rgb" then
    match img with
    | .gray px => .color (px.map (fun row => row.map (fun v => [v, v, v])))
    | .color px => .color (px.map (fun row => row.map (fun cs =>
        if cs.length = 4 then cs.take 3
        else if cs.length = 1 then cs ++ cs ++ cs
        else cs)))
  else if key = "rgb_nir" then
    match img with
    | .gray px => .color (px.map (fun row => row.map (fun v => [v, v, v, v])))
    | .color px => .color (px.map (fun row => row.map (fun cs =>
        if cs.length = 3 then cs ++ [pxMean cs]
        else if cs.length = 1 then cs ++ cs ++ cs ++ cs
        else cs)))
  else img

/-- All samples of an image array, flattened. -/
def flattenImg : RawImage → List ℚ
  | .gray px => px.flatten
  | .color px => px.flatten.flatten

/-- Apply a function to every sample of an image array. -/
def mapImg (f : ℚ → ℚ) : RawImage → RawImage
  | .gray px => .gray (px.map (fun row => row.map f))
  | .color px => .color (px.map (fun row => row.map (fun cs => cs.map f)))

/-- `arr.max()` over all samples (numpy raises on an empty array; the empty
    case is given the neutral value 0 here). -/
def listMax : List ℚ → ℚ
  | [] => 0
  | x :: xs => xs.foldl max x

/-- The normalization step of `preprocess_image`:
    `if img_array.max() > 1: img_array = img_array / 255.0`. -/
def normalizeImg (img : RawImage) : RawImage :=
  if 1 < listMax (flattenImg img) then mapImg (fun v => v / 255) img else img

/-- `LandClassifier.preprocess_image` from the `np.array(img)` stage on:
    channel adaptation, then normalization, then
    `np.expand_dims(img_array, axis=0)` (the batch dimension, modelled by a
    singleton list).  The resize and decode steps before `np.array` are
    external (PIL). -/
def preprocess_image (key : String) (img : RawImage) : List RawImage :=
  [normalizeImg (channelAdapt key img)]

/-- Channel count (`shape[-1]`) observed at each pixel of an array: a 3-D
    array contributes each pixel's channel-list length, a 2-D array has no
    channel axis (each sample counted as 1). -/
def pixelChannelCounts : RawImage → List Nat
  | .gray px => px.flatten.map (fun _ => 1)
  | .color px => px.flatten.map List.length

/-- The per-pixel colormap of `generate_heatmap`: for intensity `v < 0.5` the
    colour is `[0, int(v*510), int(255 - v*510)]`, otherwise
    `[int((v-0.5)*510), int(255 - (v-0.5)*510), 0]`. -/
def colorize (v : ℚ) : ℤ × ℤ × ℤ :=
  if v < 1/2 then (0, pyInt (v * 510), pyInt (255 - v * 510))
  else (pyInt ((v - 1/2) * 510), pyInt (255 - (v - 1/2) * 510), 0)

/-- One channel of the blend step of `generate_heatmap`:
    `np.uint8(0.5 * heatmap_colored + 0.5 * original_array)`; the `np.uint8`
    cast truncates toward zero and wraps modulo 256. -/
def blend_channel (h o : ℚ) : ℤ := pyInt (1/2 * h + 1/2 * o) % 256

/-- Modelled from the spec: the spec's blend formula
    `round(0.5*heatmapColor + 0.5*originalPixel)` with Python's
    nearest-integer rounding, stated for comparison with `blend_channel`. -/
def specBlend (h o : ℚ) : ℤ := roundHalfEven (1/2 * h + 1/2 * o)

/-- `ALLOWED_EXTENSIONS` in app.py. -/
def ALLOWED_EXTENSIONS : List String := ["png", "jpg", "jpeg", "tif", "tiff"]

/-- The characters after the last dot of a filename
    (`filename.rsplit('.', 1)[1]`), or `none` when the name has no dot
    (the `'.' in filename` guard of `allowed_file`). -/
def afterLastDot : List Char → Option (List Char)
  | [] => none
  | c :: cs =>
    match afterLastDot cs with
    | some r => some r
    | none => if c = '.' then some cs else none

/-- `allowed_file` in app.py: the name contains a dot and the part after the
    last dot, lowercased (`filename.rsplit('.', 1)[1].lower()`), is an
    allowed extension. -/
def allowed_file (filename : String) : Bool :=
  match afterLastDot filename.data with
  | some ext => decide (String.mk (ext.map Char.toLower) ∈ ALLOWED_EXTENSIONS)
  | none => false

/-- One element of the `results` list built by `analyze_series`. -/
structure SeriesEntry where
  index : Nat
  date : String
  predicted_class : String
  confidence : ℚ
  probabilities : List (String × ℚ)

deriving instance DecidableEq for SeriesEntry

/-- One element of the `changes` list built by `analyze_series`. -/
structure ChangeEvent where
  from_date : String
  to_date : String
  from_class : String
  to_class : String
  from_confidence : ℚ
  to_confidence : ℚ

deriving instance DecidableEq for ChangeEvent

/-- `dates[i] if i < len(dates) and dates[i] else f"T{i+1}"` in app.py:
    the caller-supplied label at position `i` when present and non-empty,
    else the synthesized label. -/
def dateLabel (dates : List String) (i : Nat) : String :=
  match dates.get? i with
  | some d => if d ≠ "" then d else "T" ++ toString (i + 1)
  | none => "T" ++ toString (i + 1)

/-- The per-image loop of `analyze_series`: files with an empty or disallowed
    name are skipped, each remaining file is classified (outcome carried as
    data), and only successful predictions are appended to `results`, with
    the date label derived from the original position. -/
def seriesResults (files : List (String × PredictResult)) (dates : List String) :
    List SeriesEntry :=
  files.enum.filterMap (fun q =>
    if q.2.1 = "" ∨ allowed_file q.2.1 = false then none
    else
      match q.2.2 with
      | .ok r => some ⟨q.1, dateLabel dates q.1, r.predicted_class,
                       r.confidence, r.probabilities⟩
      | .fail _ => none)

/-- The change event recorded for an adjacent pair of series entries with
    differing predicted classes. -/
def changeEvent (prev curr : SeriesEntry) : ChangeEvent :=
  ⟨prev.date, curr.date, prev.predicted_class, curr.predicted_class,
   prev.confidence, curr.confidence⟩

/-- Walk of the change-detection loop `for i in range(1, len(results))`,
    carrying the previous entry. -/
def detectChangesAux : SeriesEntry → List SeriesEntry → List ChangeEvent
  | _, [] => []
  | prev, curr :: rest =>
    (if prev.predicted_class ≠ curr.predicted_class
     then [changeEvent prev curr] else []) ++ detectChangesAux curr rest

/-- The change-detection loop of `analyze_series`: one event for every
    adjacent pair of results whose predicted classes differ. -/
def detectChanges : List SeriesEntry → List ChangeEvent
  | [] => []
  | x :: xs => detectChangesAux x xs

/-- The same changes expressed over explicit adjacent pairs
    (`zip results results.tail`), used to state the adjacency property. -/
def adjacentChangeSpec (l : List SeriesEntry) : List ChangeEvent :=
  (l.zip l.tail).filterMap (fun p =>
    if p.1.predicted_class ≠ p.2.predicted_class
    then some (changeEvent p.1 p.2) else none)

/-- Unfolding `pyMaxAux` into the running maximum of the tail: the seed
    survives unless the tail's first maximal element strictly beats it. -/
theorem pyMaxAux_eq {α β : Type} [LinearOrder β] (l : List (α × β)) (x : α × β) :
    pyMaxAux x l = match pyMax1 l with
      | none => x
      | some m => if x.2 < m.2 then m else x := by
  induction l generalizing x with
  | nil => rfl
  | cons y ys ih =>
    have h1 : pyMaxAux x (y :: ys) = pyMaxAux (if x.2 < y.2 then y else x) ys := rfl
    have h2 : (match pyMax1 (y :: ys) with
        | none => x | some m => if x.2 < m.2 then m else x)
        = if x.2 < (pyMaxAux y ys).2 then pyMaxAux y ys else x := rfl
    rw [h1, h2, ih, ih y]
    cases h : pyMax1 ys with
    | none => simp
    | some m =>
      by_cases hxy : x.2 < y.2
      · by_cases hym : y.2 < m.2
        · simp [hxy, hym, lt_trans hxy hym]
        · simp [hxy, hym]
      · by_cases hym : y.2 < m.2
        · simp [hxy, hym]
        · have hmx : ¬ x.2 < m.2 :=
            not_lt.mpr (le_trans (not_lt.mp hym) (not_lt.mp hxy))
          simp [hxy, hym, hmx]

/-- Position of the result of `pyMaxAux`: either the seed survives and bounds
    every list value, or the result splits the list with strictly smaller
    values before it and no larger value after it. -/
theorem pyMaxAux_split {α β : Type} [LinearOrder β] (l : List (α × β)) (acc : α × β) :
    (pyMaxAux acc l = acc ∧ ∀ x ∈ l, x.2 ≤ acc.2) ∨
    (∃ pre post, l = pre ++ pyMaxAux acc l :: post ∧ acc.2 < (pyMaxAux acc l).2 ∧
      (∀ x ∈ pre, x.2 < (pyMaxAux acc l).2) ∧
      (∀ x ∈ post, x.2 ≤ (pyMaxAux acc l).2)) := by
  induction l generalizing acc with
  | nil => exact Or.inl ⟨rfl, by simp⟩
  | cons y ys ih =>
    have hstep : pyMaxAux acc (y :: ys) = pyMaxAux (if acc.2 < y.2 then y else acc) ys := rfl
    by_cases hay : acc.2 < y.2
    · rw [hstep, if_pos hay]
      rcases ih y with ⟨heq, hall⟩ | ⟨pre, post, hsplit, hlt, hpre, hpost⟩
      · refine Or.inr ⟨[], ys, ?_, ?_, by simp, ?_⟩
        · rw [heq]; simp
        · rw [heq]; exact hay
        · rw [heq]; exact hall
      · refine Or.inr ⟨y :: pre, post, ?_, lt_trans hay hlt, ?_, hpost⟩
        · simpa using congrArg (List.cons y) hsplit
        · intro x hx
          rcases List.mem_cons.mp hx with rfl | hx'
          · exact hlt
          · exact hpre x hx'
    · rw [hstep, if_neg hay]
      rcases ih acc with ⟨heq, hall⟩ | ⟨pre, post, hsplit, hlt, hpre, hpost⟩
      · refine Or.inl ⟨heq, ?_⟩
        intro x hx
        rcases List.mem_cons.mp hx with rfl | hx'
        · exact not_lt.mp hay
        · exact hall x hx'
      · refine Or.inr ⟨y :: pre, post, ?_, hlt, ?_, hpost⟩
        · simpa using congrArg (List.cons y) hsplit
        · intro x hx
          rcases List.mem_cons.mp hx with rfl | hx'
          · exact lt_of_le_of_lt (not_lt.mp hay) hlt
          · exact hpre x hx'

/-- `sortInsert` permutes the inserted element into the list. -/
theorem sortInsert_perm {α β : Type} [LinearOrder β] (x : α × β) (l : List (α × β)) :
    List.Perm (sortInsert x l) (x :: l) := by
  induction l with
  | nil => exact List.Perm.refl _
  | cons y ys ih =>
    by_cases h : x.2 < y.2
    · have h1 : sortInsert x (y :: ys) = y :: sortInsert x ys := by
        simp [sortInsert, h]
      rw [h1]
      exact List.Perm.trans (List.Perm.cons y ih) (List.Perm.swap x y ys)
    · have h1 : sortInsert x (y :: ys) = x :: y :: ys := by
        simp [sortInsert, h]
      rw [h1]

/-- `sortDesc` is a permutation of its input. -/
theorem sortDesc_perm {α β : Type} [LinearOrder β] (l : List (α × β)) :
    List.Perm (sortDesc l) l := by
  induction l with
  | nil => exact List.Perm.refl _
  | cons x xs ih =>
    exact List.Perm.trans (sortInsert_perm x (sortDesc xs)) (List.Perm.cons x ih)

/-- Head of an insertion: the old head survives only if its value is strictly
    larger than the inserted one. -/
theorem head_sortInsert {α β : Type} [LinearOrder β] (x : α × β) (l : List (α × β)) :
    (sortInsert x l).head? = some (match l.head? with
      | none => x
      | some y => if x.2 < y.2 then y else x) := by
  cases l with
  | nil => rfl
  | cons y ys =>
    by_cases h : x.2 < y.2 <;> simp [sortInsert, h]

/-- The head of the stable descending sort is Python's
    `max(items, key=value)`: the first element with maximal value. -/
theorem head_sortDesc {α β : Type} [LinearOrder β] (l : List (α × β)) :
    (sortDesc l).head? = pyMax1 l := by
  induction l with
  | nil => rfl
  | cons x xs ih =>
    have h1 : sortDesc (x :: xs) = sortInsert x (sortDesc xs) := rfl
    have h2 : pyMax1 (x :: xs) = some (pyMaxAux x xs) := rfl
    rw [h1, head_sortInsert, ih, h2, pyMaxAux_eq xs x]

/-- `sortInsert` preserves descending order. -/
theorem sortInsert_sorted {α β : Type} [LinearOrder β] (x : α × β) (l : List (α × β))
    (h : l.Pairwise (fun a b => b.2 ≤ a.2)) :
    (sortInsert x l).Pairwise (fun a b => b.2 ≤ a.2) := by
  induction l with
  | nil => simp [sortInsert]
  | cons y ys ih =>
    rcases List.pairwise_cons.mp h with ⟨hy, hys⟩
    by_cases hxy : x.2 < y.2
    · have h1 : sortInsert x (y :: ys) = y :: sortInsert x ys := by
        simp [sortInsert, hxy]
      rw [h1]
      refine List.pairwise_cons.mpr ⟨?_, ih hys⟩
      intro z hz
      rcases List.mem_cons.mp ((sortInsert_perm x ys).mem_iff.mp hz) with rfl | hz'
      · exact le_of_lt hxy
      · exact hy z hz'
    · have h1 : sortInsert x (y :: ys) = x :: y :: ys := by
        simp [sortInsert, hxy]
      rw [h1]
      refine List.pairwise_cons.mpr ⟨?_, h⟩
      intro z hz
      rcases List.mem_cons.mp hz with rfl | hz'
      · exact not_lt.mp hxy
      · exact le_trans (hy z hz') (not_lt.mp hxy)

/-- The output of `sortDesc` is descending-sorted by value. -/
theorem sortDesc_sorted {α β : Type} [LinearOrder β] (l : List (α × β)) :
    (sortDesc l).Pairwise (fun a b => b.2 ≤ a.2) := by
  induction l with
  | nil => simp [sortDesc]
  | cons x xs ih => exact sortInsert_sorted x (sortDesc xs) ih

/-- Membership in the first-occurrence key list. -/
theorem mem_firstOccs (l : List String) (y : String) :
    y ∈ firstOccs l ↔ y ∈ l := by
  induction l with
  | nil => simp [firstOccs]
  | cons x xs ih =>
    by_cases hyx : y = x
    · subst hyx; simp [firstOccs]
    · simp [firstOccs, List.mem_filter, hyx, ih]

/-- Lifting a split of a filtered list back to a split of the original list
    around the same element, keeping a later element later. -/
theorem filter_split_lift {α : Type} (p : α → Bool) (L A B : List α) (c d : α)
    (h : L.filter p = A ++ c :: B) (hd : d ∈ B) :
    ∃ A2 B2, L = A2 ++ c :: B2 ∧ d ∈ B2 := by
  induction L generalizing A with
  | nil => simp at h
  | cons y L2 ih =>
    by_cases hp : p y
    · rw [List.filter_cons_of_pos hp] at h
      cases A with
      | nil =>
        rcases List.cons_eq_cons.mp h with ⟨rfl, hB⟩
        refine ⟨[], L2, by simp, ?_⟩
        have : d ∈ L2.filter p := hB ▸ hd
        exact (List.mem_filter.mp this).1
      | cons a A2 =>
        rcases List.cons_eq_cons.mp h with ⟨rfl, hB⟩
        rcases ih A2 hB with ⟨A3, B3, hL, hdB⟩
        exact ⟨y :: A3, B3, by simp [hL], hdB⟩
    · rw [List.filter_cons_of_neg hp] at h
      rcases ih A h with ⟨A3, B3, hL, hdB⟩
      exact ⟨y :: A3, B3, by simp [hL], hdB⟩

/-- In the first-occurrence key list, a key listed after another first occurs
    later in the underlying list. -/
theorem firstOccs_split_indexOf (l : List String) (pre post : List String) (c d : String)
    (h : firstOccs l = pre ++ c :: post) (hd : d ∈ post) :
    l.indexOf c < l.indexOf d := by
  induction l generalizing pre post with
  | nil => simp [firstOccs] at h
  | cons x xs ih =>
    rw [firstOccs] at h
    cases pre with
    | nil =>
      obtain ⟨hxc, hB⟩ := List.cons_eq_cons.mp h
      have hdf : d ∈ (firstOccs xs).filter (fun y => decide (y ≠ x)) := by
        rw [hB]; exact hd
      have hdne : d ≠ x := by simpa using (List.mem_filter.mp hdf).2
      rw [← hxc, List.indexOf_cons_self, List.indexOf_cons_ne xs hdne.symm]
      exact Nat.succ_pos _
    | cons a pre2 =>
      rcases List.cons_eq_cons.mp h with ⟨rfl, hB⟩
      have hcf : c ∈ (firstOccs xs).filter (fun y => decide (y ≠ x)) := by
        rw [hB]; exact List.mem_append_right _ (List.mem_cons_self c post)
      have hdf : d ∈ (firstOccs xs).filter (fun y => decide (y ≠ x)) := by
        rw [hB]; exact List.mem_append_right _ (List.mem_cons_of_mem c hd)
      have hcne : c ≠ x := by simpa using (List.mem_filter.mp hcf).2
      have hdne : d ≠ x := by simpa using (List.mem_filter.mp hdf).2
      rcases filter_split_lift _ (firstOccs xs) pre2 post c d hB hd with ⟨A2, B2, hsp, hdB⟩
      have hlt := ih A2 B2 hsp hdB
      rw [List.indexOf_cons_ne xs hcne.symm, List.indexOf_cons_ne xs hdne.symm]
      exact Nat.succ_lt_succ hlt

/-- Splitting `L.map f = P ++ m :: S` into a split of `L`. -/
theorem map_eq_append_cons {α β : Type} (f : α → β) (L : List α) (P S : List β) (m : β)
    (h : L.map f = P ++ m :: S) :
    ∃ A x B, L = A ++ x :: B ∧ A.map f = P ∧ f x = m ∧ B.map f = S := by
  induction L generalizing P with
  | nil => simp at h
  | cons y L2 ih =>
    rw [List.map_cons] at h
    cases P with
    | nil =>
      rcases List.cons_eq_cons.mp h with ⟨rfl, hS⟩
      exact ⟨[], y, L2, by simp, rfl, rfl, hS⟩
    | cons p P2 =>
      rcases List.cons_eq_cons.mp h with ⟨rfl, hS⟩
      rcases ih P2 hS with ⟨A2, x, B2, hL, hP, hx, hB⟩
      exact ⟨y :: A2, x, B2, by simp [hL], by simp [hP], hx, hB⟩


/-- `Counter(l).most_common(1)` returns a label of `l` with maximal count,
    and among equal-count labels the one whose first occurrence comes first. -/
theorem mostCommon1_spec (l : List String) (c : String) (h : mostCommon1 l = some c) :
    c ∈ l ∧ (∀ d ∈ l, l.count d ≤ l.count c) ∧
    (∀ d ∈ l, l.count d = l.count c → l.indexOf c ≤ l.indexOf d) := by
  unfold mostCommon1 at h
  rcases hci : counterItems l with _ | ⟨i, is⟩
  · rw [hci] at h; simp at h
  · rw [hci] at h
    have hc : (pyMaxAux i is).1 = c := by simpa using h
    have hsplit : ∃ PRE POST, i :: is = PRE ++ pyMaxAux i is :: POST ∧
        (∀ x ∈ PRE, x.2 < (pyMaxAux i is).2) ∧
        (∀ x ∈ POST, x.2 ≤ (pyMaxAux i is).2) := by
      rcases pyMaxAux_split is i with ⟨heq, hall⟩ | ⟨pre, post, hsp, hlt, hpre, hpost⟩
      · exact ⟨[], is, by rw [heq]; rfl, by simp, by rw [heq]; exact hall⟩
      · refine ⟨i :: pre, post, by rw [List.cons_append, ← hsp], ?_, hpost⟩
        intro x hx
        rcases List.mem_cons.mp hx with rfl | hx'
        · exact hlt
        · exact hpre x hx'
    rcases hsplit with ⟨PRE, POST, hPP, hPRE, hPOST⟩
    have hmap : (firstOccs l).map (fun k => (k, l.count k)) = PRE ++ pyMaxAux i is :: POST := by
      rw [← hPP, ← hci]; rfl
    rcases map_eq_append_cons _ (firstOccs l) PRE POST (pyMaxAux i is) hmap with
      ⟨A, mb, B, hfo, hA, hmb, hB⟩
    have hmb1 : mb = c := by rw [← hc, ← hmb]
    rw [hmb1] at hfo hmb
    have hval : (pyMaxAux i is).2 = l.count c := by rw [← hmb]
    have hcmem : c ∈ l := by
      refine (mem_firstOccs l c).mp ?_
      rw [hfo]
      exact List.mem_append_right _ (List.mem_cons_self c B)
    refine ⟨hcmem, ?_, ?_⟩
    · intro d hd
      have hdfo : d ∈ firstOccs l := (mem_firstOccs l d).mpr hd
      rw [hfo] at hdfo
      rcases List.mem_append.mp hdfo with hdA | hdcB
      · have : (d, l.count d) ∈ PRE := by
          rw [← hA]; exact List.mem_map_of_mem _ hdA
        have := hPRE _ this
        rw [hval] at this
        exact le_of_lt this
      · rcases List.mem_cons.mp hdcB with rfl | hdB
        · exact le_refl _
        · have : (d, l.count d) ∈ POST := by
            rw [← hB]; exact List.mem_map_of_mem _ hdB
          have := hPOST _ this
          rw [hval] at this
          exact this
    · intro d hd hcount
      have hdfo : d ∈ firstOccs l := (mem_firstOccs l d).mpr hd
      rw [hfo] at hdfo
      rcases List.mem_append.mp hdfo with hdA | hdcB
      · exfalso
        have : (d, l.count d) ∈ PRE := by
          rw [← hA]; exact List.mem_map_of_mem _ hdA
        have := hPRE _ this
        rw [hval] at this
        exact absurd hcount (ne_of_lt this)
      · rcases List.mem_cons.mp hdcB with rfl | hdB
        · exact le_refl _
        · exact le_of_lt (firstOccs_split_indexOf l A B c d hfo hdB)

/-- `mostCommon1` is `none` exactly on the empty list. -/
theorem mostCommon1_eq_none_iff (l : List String) :
    mostCommon1 l = none ↔ l = [] := by
  cases l with
  | nil => simp [mostCommon1, counterItems, firstOccs]
  | cons x xs =>
    simp [mostCommon1, counterItems, firstOccs]

/-- Every element is bounded by `listMax`'s fold. -/
theorem le_foldl_max (l : List ℚ) (a : ℚ) : a ≤ l.foldl max a := by
  induction l generalizing a with
  | nil => exact le_refl a
  | cons x xs ih => exact le_trans (le_max_left a x) (ih (max a x))

/-- Membership bound for `listMax`'s fold. -/
theorem mem_le_foldl_max (l : List ℚ) (a x : ℚ) (hx : x ∈ l) : x ≤ l.foldl max a := by
  induction l generalizing a with
  | nil => simp at hx
  | cons y ys ih =>
    rcases List.mem_cons.mp hx with rfl | hx'
    · exact le_trans (le_max_right a x) (le_foldl_max ys (max a x))
    · exact ih (max a y) hx'

/-- The fold of `max` returns the seed or a list element. -/
theorem foldl_max_cases (l : List ℚ) (a : ℚ) : l.foldl max a = a ∨ l.foldl max a ∈ l := by
  induction l generalizing a with
  | nil => exact Or.inl rfl
  | cons x xs ih =>
    rcases ih (max a x) with heq | hmem
    · rcases max_choice a x with hmax | hmax
      · exact Or.inl (by rw [List.foldl_cons, heq, hmax])
      · exact Or.inr (by rw [List.foldl_cons, heq, hmax]; exact List.mem_cons_self x xs)
    · exact Or.inr (List.mem_cons_of_mem x hmem)

/-- `arr.max() > b` holds exactly when some sample exceeds `b`
    (for a non-negative bound, covering the empty-array default). -/
theorem listMax_lt_iff (l : List ℚ) (b : ℚ) (hb : 0 ≤ b) :
    b < listMax l ↔ ∃ x ∈ l, b < x := by
  constructor
  · intro h
    cases l with
    | nil =>
      exact absurd h (not_lt.mpr (by simpa [listMax] using hb))
    | cons x xs =>
      rcases foldl_max_cases xs x with heq | hmem
      · exact ⟨x, List.mem_cons_self x xs, by simpa [listMax, heq] using h⟩
      · exact ⟨listMax (x :: xs), List.mem_cons_of_mem x hmem, h⟩
  · rintro ⟨x, hx, hbx⟩
    cases l with
    | nil => simp at hx
    | cons y ys =>
      rcases List.mem_cons.mp hx with rfl | hx'
      · exact lt_of_lt_of_le hbx (le_foldl_max ys x)
      · exact lt_of_lt_of_le hbx (mem_le_foldl_max ys y x hx')

/-- First projections of the zipped probability items are the class names
    (when the raw vector is at least as long). -/
theorem map_fst_zipWith_probs (names : List String) (raw : List ℚ)
    (h : names.length ≤ raw.length) :
    (List.zipWith (fun n p => (n, p * 100)) names raw).map Prod.fst = names := by
  induction names generalizing raw with
  | nil => simp
  | cons n ns ih =>
    cases raw with
    | nil => simp at h
    | cons p ps =>
      simpa using ih ps (Nat.le_of_succ_le_succ h)

/-- Second projections of the zipped probability items are the scaled raw
    values (when lengths agree). -/
theorem map_snd_zipWith_probs (names : List String) (raw : List ℚ)
    (h : raw.length = names.length) :
    (List.zipWith (fun n p => (n, p * 100)) names raw).map Prod.snd
      = raw.map (fun p => p * 100) := by
  induction names generalizing raw with
  | nil =>
    cases raw with
    | nil => simp
    | cons p ps => simp at h
  | cons n ns ih =>
    cases raw with
    | nil => simp at h
    | cons p ps =>
      simpa using ih ps (Nat.succ_injective h)

/-- Sum of the percentage-scaled values. -/
theorem sum_map_mul100 (l : List ℚ) : (l.map (fun p => p * 100)).sum = l.sum * 100 := by
  induction l with
  | nil => simp
  | cons x xs ih => simp [ih, add_mul]

/-- `lookup` misses exactly the keys outside the association list. -/
theorem lookup_eq_none_iff {β : Type} (l : List (String × β)) (key : String) :
    l.lookup key = none ↔ key ∉ l.map Prod.fst := by
  induction l with
  | nil => simp [List.lookup]
  | cons p ps ih =>
    by_cases h : key = p.1
    · subst h
      simp [List.lookup]
    · simp only [List.lookup, List.map_cons, List.mem_cons]
      rw [beq_false_of_ne h]
      simpa [h] using ih

example : allowed_file "a.PNG" = true := by decide

example : allowed_file "apng" = false := by decide

/-- Destructuring a successful `predictFromRaw`: the raw vector covers all
    classes and the result is built from the zipped probability items. -/
theorem predictFromRaw_ok (key : String) (raw : List ℚ) (r : PredictionOk)
    (h : predictFromRaw key raw = .ok r) :
    ∃ p ps, List.zipWith (fun n q => (n, q * 100)) CLASS_NAMES raw = p :: ps ∧
      CLASS_NAMES.length ≤ raw.length ∧
      r = ⟨(pyMaxAux p ps).1, round2 (pyMaxAux p ps).2, sortDesc (p :: ps),
           modelName key⟩ := by
  unfold predictFromRaw at h
  by_cases hlen : raw.length < CLASS_NAMES.length
  · rw [if_pos hlen] at h
    exact absurd h (by simp)
  · rw [if_neg hlen] at h
    rcases hzip : List.zipWith (fun n q => (n, q * 100)) CLASS_NAMES raw with _ | ⟨p, ps⟩
    · rw [hzip] at h
      exact absurd h (by simp)
    · rw [hzip] at h
      refine ⟨p, ps, rfl, not_lt.mp hlen, ?_⟩
      injection h with h1
      exact h1.symm

/-- C1: for every successful prediction whose raw network output is a
    probability vector over the ten classes (sum within `1/10000` of 1, as a
    softmax output is), the probability mapping's values sum to 100 within
    0.01, and its keys are exactly the Class Label Set, each label once. -/
theorem probabilities_sum_and_keys (key : String) (raw : List ℚ) (r : PredictionOk)
    (hok : predictFromRaw key raw = .ok r)
    (hlen : raw.length = CLASS_NAMES.length)
    (hsum : |raw.sum - 1| ≤ 1/10000) :
    |(r.probabilities.map Prod.snd).sum - 100| ≤ 1/100 ∧
    List.Perm (r.probabilities.map Prod.fst) CLASS_NAMES := by
  rcases predictFromRaw_ok key raw r hok with ⟨p, ps, hzip, hle, hr⟩
  have hperm : List.Perm (sortDesc (p :: ps)) (p :: ps) := sortDesc_perm _
  subst hr
  constructor
  · show |((sortDesc (p :: ps)).map Prod.snd).sum - 100| ≤ 1/100
    have h1 : ((sortDesc (p :: ps)).map Prod.snd).sum = ((p :: ps).map Prod.snd).sum :=
      (hperm.map Prod.snd).sum_eq
    have h2 : ((p :: ps).map Prod.snd).sum = raw.sum * 100 := by
      rw [← hzip, map_snd_zipWith_probs CLASS_NAMES raw hlen, sum_map_mul100]
    rw [h1, h2]
    have h3 : raw.sum * 100 - 100 = (raw.sum - 1) * 100 := by ring
    rw [h3, abs_mul]
    have h4 : |(100 : ℚ)| = 100 := by norm_num
    rw [h4]
    calc |raw.sum - 1| * 100 ≤ (1/10000) * 100 := by
          exact mul_le_mul_of_nonneg_right hsum (by norm_num)
      _ = 1/100 := by norm_num
  · show List.Perm ((sortDesc (p :: ps)).map Prod.fst) CLASS_NAMES
    have h5 : ((p :: ps).map Prod.fst) = CLASS_NAMES := by
      rw [← hzip, map_fst_zipWith_probs CLASS_NAMES raw hle]
    exact h5 ▸ hperm.map Prod.fst

/-- Witness for C1 at a concrete softmax-like output. -/
theorem probabilities_sum_and_keys_witness :
    |((PredictionOk.mk "AnnualCrop" 50
        [("AnnualCrop", 50), ("Forest", 50), ("HerbaceousVegetation", 0),
         ("Highway", 0), ("Industrial", 0), ("Pasture", 0), ("PermanentCrop", 0),
         ("Residential", 0), ("River", 0), ("SeaLake", 0)] "RGB Model").probabilities.map
          Prod.snd).sum - 100| ≤ 1/100 ∧
    List.Perm ((PredictionOk.mk "AnnualCrop" 50
        [("AnnualCrop", 50), ("Forest", 50), ("HerbaceousVegetation", 0),
         ("Highway", 0), ("Industrial", 0), ("Pasture", 0), ("PermanentCrop", 0),
         ("Residential", 0), ("River", 0), ("SeaLake", 0)] "RGB Model").probabilities.map
          Prod.fst) CLASS_NAMES :=
  probabilities_sum_and_keys "rgb" [1/2, 1/2, 0, 0, 0, 0, 0, 0, 0, 0] _
    (by norm_num [predictFromRaw, CLASS_NAMES, pyMaxAux, sortDesc, sortInsert,
      round2, roundHalfEven, modelName, MODEL_CONFIG])
    (by norm_num [CLASS_NAMES])
    (by norm_num)

/-- C10: for every successful prediction, the predicted label is the first
    key of the descending-sorted probability mapping (both resolve ties to
    the first label in Class Label Set order), the confidence is that first
    entry's value rounded to 2 decimals, and the mapping's values are the
    unrounded scaled raw outputs (a permutation of the zipped items),
    descending-sorted. -/
theorem predicted_class_is_head (key : String) (raw : List ℚ) (r : PredictionOk)
    (hok : predictFromRaw key raw = .ok r) :
    (∃ hd tl, r.probabilities = hd :: tl ∧ r.predicted_class = hd.1 ∧
      r.confidence = round2 hd.2) ∧
    List.Perm r.probabilities (List.zipWith (fun n q => (n, q * 100)) CLASS_NAMES raw) ∧
    r.probabilities.Pairwise (fun a b => b.2 ≤ a.2) := by
  rcases predictFromRaw_ok key raw r hok with ⟨p, ps, hzip, hle, hr⟩
  subst hr
  refine ⟨?_, ?_, ?_⟩
  · have hhead : (sortDesc (p :: ps)).head? = some (pyMaxAux p ps) := by
      rw [head_sortDesc]
      rfl
    rcases hsd : sortDesc (p :: ps) with _ | ⟨hd, tl⟩
    · rw [hsd] at hhead
      simp at hhead
    · rw [hsd] at hhead
      have hhd : hd = pyMaxAux p ps := by simpa using hhead
      refine ⟨hd, tl, rfl, ?_, ?_⟩
      · show (pyMaxAux p ps).1 = hd.1
        rw [hhd]
      · show round2 (pyMaxAux p ps).2 = round2 hd.2
        rw [hhd]
  · show List.Perm (sortDesc (p :: ps)) _
    rw [hzip]
    exact sortDesc_perm _
  · show (sortDesc (p :: ps)).Pairwise (fun a b => b.2 ≤ a.2)
    exact sortDesc_sorted _

/-- Witness for C10 at a concrete tied output: both the stable sort and the
    argmax pick the first label in Class Label Set order. -/
theorem predicted_class_is_head_witness :
    (∃ hd tl, (PredictionOk.mk "AnnualCrop" 10
        [("AnnualCrop", 10), ("Forest", 10), ("HerbaceousVegetation", 10),
         ("Highway", 10), ("Industrial", 10), ("Pasture", 10), ("PermanentCrop", 10),
         ("Residential", 10), ("River", 10), ("SeaLake", 10)] "NDVI Model").probabilities
        = hd :: tl ∧
      (PredictionOk.mk "AnnualCrop" 10
        [("AnnualCrop", 10), ("Forest", 10), ("HerbaceousVegetation", 10),
         ("Highway", 10), ("Industrial", 10), ("Pasture", 10), ("PermanentCrop", 10),
         ("Residential", 10), ("River", 10), ("SeaLake", 10)] "NDVI Model").predicted_class
        = hd.1 ∧
      (PredictionOk.mk "AnnualCrop" 10
        [("AnnualCrop", 10), ("Forest", 10), ("HerbaceousVegetation", 10),
         ("Highway", 10), ("Industrial", 10), ("Pasture", 10), ("PermanentCrop", 10),
         ("Residential", 10), ("River", 10), ("SeaLake", 10)] "NDVI Model").confidence
        = round2 hd.2) ∧
    List.Perm (PredictionOk.mk "AnnualCrop" 10
        [("AnnualCrop", 10), ("Forest", 10), ("HerbaceousVegetation", 10),
         ("Highway", 10), ("Industrial", 10), ("Pasture", 10), ("PermanentCrop", 10),
         ("Residential", 10), ("River", 10), ("SeaLake", 10)] "NDVI Model").probabilities
      (List.zipWith (fun n q => (n, q * 100)) CLASS_NAMES
        [1/10, 1/10, 1/10, 1/10, 1/10, 1/10, 1/10, 1/10, 1/10, 1/10]) ∧
    (PredictionOk.mk "AnnualCrop" 10
        [("AnnualCrop", 10), ("Forest", 10), ("HerbaceousVegetation", 10),
         ("Highway", 10), ("Industrial", 10), ("Pasture", 10), ("PermanentCrop", 10),
         ("Residential", 10), ("River", 10), ("SeaLake", 10)] "NDVI Model").probabilities.Pairwise
      (fun a b => b.2 ≤ a.2) :=
  predicted_class_is_head "ndvi"
    [1/10, 1/10, 1/10, 1/10, 1/10, 1/10, 1/10, 1/10, 1/10, 1/10] _
    (by norm_num [predictFromRaw, CLASS_NAMES, pyMaxAux, sortDesc, sortInsert,
      round2, roundHalfEven, modelName, MODEL_CONFIG]; decide)

/-- The not-loaded error string never coincides with the message of a raised
    `IndexError` (they differ in their first character). -/
theorem unavailableMsg_ne (key : String) :
    unavailableMsg key ≠ "list index out of range" := by
  intro h
  have h1 : (unavailableMsg key).data = "list index out of range".data := by rw [h]
  have h2 : (unavailableMsg key).data
      = 'M' :: ("odel \"".data ++ key.data ++ "\" not loaded".data) := by
    show (("Model \"" ++ key) ++ "\" not loaded").data = _
    rw [String.data_append, String.data_append]
    show ('M' :: "odel \"".data ++ key.data) ++ "\" not loaded".data = _
    simp [List.append_assoc]
  rw [h2] at h1
  have h4 := congrArg List.head? h1
  simp at h4

/-- C6: a registry variant is reported `loaded = false` by
    `get_available_models` exactly when it is absent from the loaded-model
    set, and `predict` returns the not-loaded failure dictionary (it never
    raises) exactly under the same condition.  `predict` reads the model set
    without changing it, so other variants are unaffected.  The side
    condition `hclean` records that a raised exception's message is not the
    not-loaded string itself (in the code both are bare strings). -/
theorem availability_roundtrip (models : List (String × ModelRun)) (key : String)
    (hreg : key ∈ MODEL_CONFIG.map Prod.fst)
    (hclean : ∀ e, models.lookup key = some (ModelRun.raiseE e) →
      e ≠ unavailableMsg key) :
    ((∃ info ∈ get_available_models models, info.key = key ∧ info.loaded = false) ↔
      models.lookup key = none) ∧
    ((predict models key = .fail (unavailableMsg key)) ↔ models.lookup key = none) := by
  constructor
  · constructor
    · rintro ⟨info, hmem, hkey, hloaded⟩
      rcases List.mem_map.mp hmem with ⟨p, hp, hinfo⟩
      rw [lookup_eq_none_iff]
      intro hmemk
      rw [← hinfo] at hkey hloaded
      simp only at hkey hloaded
      rw [hkey] at hloaded
      simp only [decide_eq_false_iff_not] at hloaded
      exact hloaded hmemk
    · intro hnone
      rcases List.mem_map.mp hreg with ⟨p, hp, hpkey⟩
      refine ⟨⟨p.1, p.2.name, p.2.description, decide (p.1 ∈ models.map Prod.fst)⟩,
        List.mem_map_of_mem _ hp, hpkey, ?_⟩
      rw [hpkey]
      simp only [decide_eq_false_iff_not]
      exact (lookup_eq_none_iff models key).mp hnone
  · constructor
    · intro hfail
      rcases hlk : models.lookup key with _ | run
      · rfl
      · exfalso
        cases run with
        | output raw =>
          have hp : predict models key = predictFromRaw key raw := by
            unfold predict
            rw [hlk]
          rw [hp] at hfail
          unfold predictFromRaw at hfail
          by_cases hlen : raw.length < CLASS_NAMES.length
          · rw [if_pos hlen] at hfail
            injection hfail with hmsg
            exact absurd hmsg.symm (unavailableMsg_ne key)
          · rw [if_neg hlen] at hfail
            rcases hzip : List.zipWith (fun n q => (n, q * 100)) CLASS_NAMES raw with
              _ | ⟨p, ps⟩
            · rw [hzip] at hfail
              injection hfail with hmsg
              exact absurd hmsg.symm (unavailableMsg_ne key)
            · rw [hzip] at hfail
              exact PredictResult.noConfusion hfail
        | raiseE e =>
          have hp : predict models key = .fail e := by
            unfold predict
            rw [hlk]
          rw [hp] at hfail
          injection hfail with hmsg
          exact hclean e hlk hmsg
    · intro hnone
      unfold predict
      rw [hnone]

/-- Witness for C6: with only the ndvi model loaded, rgb is reported
    unavailable and `predict` returns its not-loaded error. -/
theorem availability_roundtrip_witness :
    ((∃ info ∈ get_available_models [("ndvi", ModelRun.raiseE "boom")],
        info.key = "rgb" ∧ info.loaded = false) ↔
      ([("ndvi", ModelRun.raiseE "boom")] :
        List (String × ModelRun)).lookup "rgb" = none) ∧
    ((predict [("ndvi", ModelRun.raiseE "boom")] "rgb"
        = .fail (unavailableMsg "rgb")) ↔
      ([("ndvi", ModelRun.raiseE "boom")] :
        List (String × ModelRun)).lookup "rgb" = none) :=
  availability_roundtrip [("ndvi", ModelRun.raiseE "boom")] "rgb"
    (by decide)
    (by intro e h; simp [List.lookup] at h)

/-- Both branches of `compare_all` carry the same per-variant results. -/
theorem compare_all_models_eq (models : List (String × ModelRun)) :
    (compare_all models).models = cmpResults models := by
  rcases hmc : mostCommon1 (cmpPredictions models) with _ | c <;>
    simp [compare_all, hmc]

/-- The consensus field of `compare_all` is `most_common(1)` of the
    successful predictions. -/
theorem compare_all_consensus_eq (models : List (String × ModelRun)) :
    (compare_all models).consensus = mostCommon1 (cmpPredictions models) := by
  rcases hmc : mostCommon1 (cmpPredictions models) with _ | c <;>
    simp [compare_all, hmc]

/-- C4: the consensus of `compare_all` is the label with the highest
    occurrence count among successful predictions (taken in loaded-variant
    iteration order), ties broken by first occurrence; the agreement is
    occurrences of the consensus divided by the number of successful
    predictions times 100, rounded to 1 decimal; and with zero successes the
    consensus is `none` and the agreement 0. -/
theorem compare_consensus_agreement (models : List (String × ModelRun)) :
    (cmpPredictions models = [] → (compare_all models).consensus = none ∧
      (compare_all models).agreement = 0) ∧
    (∀ c, (compare_all models).consensus = some c →
      c ∈ cmpPredictions models ∧
      (∀ d ∈ cmpPredictions models,
        (cmpPredictions models).count d ≤ (cmpPredictions models).count c) ∧
      (∀ d ∈ cmpPredictions models,
        (cmpPredictions models).count d = (cmpPredictions models).count c →
        (cmpPredictions models).indexOf c ≤ (cmpPredictions models).indexOf d) ∧
      (compare_all models).agreement =
        round1 (((cmpPredictions models).count c : ℚ) /
          ((cmpPredictions models).length : ℚ) * 100)) := by
  constructor
  · intro h
    have hmc : mostCommon1 (cmpPredictions models) = none :=
      (mostCommon1_eq_none_iff _).mpr h
    constructor <;> simp [compare_all, hmc]
  · intro c hc
    rcases hmc : mostCommon1 (cmpPredictions models) with _ | c2
    · rw [show (compare_all models).consensus
          = mostCommon1 (cmpPredictions models) from by
            rcases hmc2 : mostCommon1 (cmpPredictions models) with _ | c3 <;>
              simp [compare_all, hmc2]] at hc
      rw [hmc] at hc
      exact Option.noConfusion hc
    · have hcons : (compare_all models).consensus = some c2 := by
        simp [compare_all, hmc]
      rw [hcons] at hc
      have hc2 : c2 = c := by simpa using hc
      subst hc2
      rcases mostCommon1_spec _ _ hmc with ⟨hmem, hcount, htie⟩
      refine ⟨hmem, hcount, htie, ?_⟩
      simp [compare_all, hmc]

/-- Witness for C4: three loaded variants voting AnnualCrop, Forest,
    AnnualCrop give consensus AnnualCrop. -/
theorem compare_consensus_agreement_witness :
    "AnnualCrop" ∈ cmpPredictions
      [("rgb", ModelRun.output [1, 0, 0, 0, 0, 0, 0, 0, 0, 0]),
       ("rgb_nir", ModelRun.output [0, 1, 0, 0, 0, 0, 0, 0, 0, 0]),
       ("ndvi", ModelRun.output [1, 0, 0, 0, 0, 0, 0, 0, 0, 0])] :=
  ((compare_consensus_agreement
      [("rgb", ModelRun.output [1, 0, 0, 0, 0, 0, 0, 0, 0, 0]),
       ("rgb_nir", ModelRun.output [0, 1, 0, 0, 0, 0, 0, 0, 0, 0]),
       ("ndvi", ModelRun.output [1, 0, 0, 0, 0, 0, 0, 0, 0, 0])]).2 "AnnualCrop"
    (by
      have e1 : predict
          [("rgb", ModelRun.output [1, 0, 0, 0, 0, 0, 0, 0, 0, 0]),
           ("rgb_nir", ModelRun.output [0, 1, 0, 0, 0, 0, 0, 0, 0, 0]),
           ("ndvi", ModelRun.output [1, 0, 0, 0, 0, 0, 0, 0, 0, 0])] "rgb"
          = .ok ⟨"AnnualCrop", 100,
            [("AnnualCrop", 100), ("Forest", 0), ("HerbaceousVegetation", 0),
             ("Highway", 0), ("Industrial", 0), ("Pasture", 0),
             ("PermanentCrop", 0), ("Residential", 0), ("River", 0),
             ("SeaLake", 0)], "RGB Model"⟩ := by
        have h0 : predict
            [("rgb", ModelRun.output [1, 0, 0, 0, 0, 0, 0, 0, 0, 0]),
             ("rgb_nir", ModelRun.output [0, 1, 0, 0, 0, 0, 0, 0, 0, 0]),
             ("ndvi", ModelRun.output [1, 0, 0, 0, 0, 0, 0, 0, 0, 0])] "rgb"
            = predictFromRaw "rgb" [1, 0, 0, 0, 0, 0, 0, 0, 0, 0] := by
          simp [predict, List.lookup]
        rw [h0]
        norm_num [predictFromRaw, CLASS_NAMES, pyMaxAux, sortDesc, sortInsert,
          round2, roundHalfEven, modelName, MODEL_CONFIG]
      have e2 : predict
          [("rgb", ModelRun.output [1, 0, 0, 0, 0, 0, 0, 0, 0, 0]),
           ("rgb_nir", ModelRun.output [0, 1, 0, 0, 0, 0, 0, 0, 0, 0]),
           ("ndvi", ModelRun.output [1, 0, 0, 0, 0, 0, 0, 0, 0, 0])] "rgb_nir"
          = .ok ⟨"Forest", 100,
            [("Forest", 100), ("AnnualCrop", 0), ("HerbaceousVegetation", 0),
             ("Highway", 0), ("Industrial", 0), ("Pasture", 0),
             ("PermanentCrop", 0), ("Residential", 0), ("River", 0),
             ("SeaLake", 0)], "RGB + NIR Model"⟩ := by
        have h0 : predict
            [("rgb", ModelRun.output [1, 0, 0, 0, 0, 0, 0, 0, 0, 0]),
             ("rgb_nir", ModelRun.output [0, 1, 0, 0, 0, 0, 0, 0, 0, 0]),
             ("ndvi", ModelRun.output [1, 0, 0, 0, 0, 0, 0, 0, 0, 0])] "rgb_nir"
            = predictFromRaw "rgb_nir" [0, 1, 0, 0, 0, 0, 0, 0, 0, 0] := by
          simp [predict, List.lookup]
        rw [h0]
        norm_num [predictFromRaw, CLASS_NAMES, pyMaxAux, sortDesc, sortInsert,
          round2, roundHalfEven, modelName, MODEL_CONFIG, apply_ite]
        decide
      have e3 : predict
          [("rgb", ModelRun.output [1, 0, 0, 0, 0, 0, 0, 0, 0, 0]),
           ("rgb_nir", ModelRun.output [0, 1, 0, 0, 0, 0, 0, 0, 0, 0]),
           ("ndvi", ModelRun.output [1, 0, 0, 0, 0, 0, 0, 0, 0, 0])] "ndvi"
          = .ok ⟨"AnnualCrop", 100,
            [("AnnualCrop", 100), ("Forest", 0), ("HerbaceousVegetation", 0),
             ("Highway", 0), ("Industrial", 0), ("Pasture", 0),
             ("PermanentCrop", 0), ("Residential", 0), ("River", 0),
             ("SeaLake", 0)], "NDVI Model"⟩ := by
        have h0 : predict
            [("rgb", ModelRun.output [1, 0, 0, 0, 0, 0, 0, 0, 0, 0]),
             ("rgb_nir", ModelRun.output [0, 1, 0, 0, 0, 0, 0, 0, 0, 0]),
             ("ndvi", ModelRun.output [1, 0, 0, 0, 0, 0, 0, 0, 0, 0])] "ndvi"
            = predictFromRaw "ndvi" [1, 0, 0, 0, 0, 0, 0, 0, 0, 0] := by
          simp [predict, List.lookup]
        rw [h0]
        norm_num [predictFromRaw, CLASS_NAMES, pyMaxAux, sortDesc, sortInsert,
          round2, roundHalfEven, modelName, MODEL_CONFIG]
        decide
      have hp : cmpPredictions
          [("rgb", ModelRun.output [1, 0, 0, 0, 0, 0, 0, 0, 0, 0]),
           ("rgb_nir", ModelRun.output [0, 1, 0, 0, 0, 0, 0, 0, 0, 0]),
           ("ndvi", ModelRun.output [1, 0, 0, 0, 0, 0, 0, 0, 0, 0])]
          = ["AnnualCrop", "Forest", "AnnualCrop"] := by
        simp [cmpPredictions, cmpResults, e1, e2, e3]
      rw [compare_all_consensus_eq, hp]
      simp [mostCommon1, counterItems, firstOccs, pyMaxAux, List.count_cons,
        List.count_nil])).1

/-- C5 (amended): `compare_all` records one entry per loaded variant — a
    prediction entry when `predict` succeeds and an error entry carrying the
    failure string otherwise — and no entry at all for a variant absent from
    the loaded-model set. -/
theorem compare_entries_per_loaded (models : List (String × ModelRun)) :
    ((compare_all models).models.map Prod.fst = models.map Prod.fst) ∧
    (∀ k, k ∈ models.map Prod.fst →
      ∃ en, (k, en) ∈ (compare_all models).models ∧
        ((∃ r, predict models k = .ok r ∧
            en = .pred (modelName k) r.predicted_class r.confidence r.probabilities) ∨
         (∃ msg, predict models k = .fail msg ∧ en = .err (modelName k) msg))) ∧
    (∀ k, k ∉ models.map Prod.fst → ∀ en, (k, en) ∉ (compare_all models).models) := by
  refine ⟨?_, ?_, ?_⟩
  · rw [compare_all_models_eq]
    unfold cmpResults
    rw [List.map_map]
    rfl
  · intro k hk
    rcases List.mem_map.mp hk with ⟨p, hp, hpk⟩
    subst hpk
    rw [compare_all_models_eq]
    rcases hpr : predict models p.1 with r | msg
    · refine ⟨.pred (modelName p.1) r.predicted_class r.confidence r.probabilities,
        ?_, Or.inl ⟨r, rfl, rfl⟩⟩
      have hfp : (p.1, (CmpEntry.pred (modelName p.1) r.predicted_class
          r.confidence r.probabilities))
          = (fun q => (q.1, match predict models q.1 with
              | .ok r2 => CmpEntry.pred (modelName q.1) r2.predicted_class
                  r2.confidence r2.probabilities
              | .fail e2 => CmpEntry.err (modelName q.1) e2)) p := by
        simp only [hpr]
      rw [hfp]
      exact List.mem_map_of_mem _ hp
    · refine ⟨.err (modelName p.1) msg, ?_, Or.inr ⟨msg, rfl, rfl⟩⟩
      have hfp : (p.1, CmpEntry.err (modelName p.1) msg)
          = (fun q => (q.1, match predict models q.1 with
              | .ok r2 => CmpEntry.pred (modelName q.1) r2.predicted_class
                  r2.confidence r2.probabilities
              | .fail e2 => CmpEntry.err (modelName q.1) e2)) p := by
        simp only [hpr]
      rw [hfp]
      exact List.mem_map_of_mem _ hp
  · intro k hk en hmem
    rw [compare_all_models_eq] at hmem
    rcases List.mem_map.mp hmem with ⟨p, hp, hpe⟩
    apply hk
    have : p.1 = k := congrArg Prod.fst hpe
    rw [← this]
    exact List.mem_map_of_mem _ hp

/-- Witness for C5 (amended): a loaded variant whose forward pass raises gets
    an error entry. -/
theorem compare_entries_per_loaded_witness :
    ∃ en, ("ndvi", en) ∈ (compare_all [("ndvi", ModelRun.raiseE "boom")]).models ∧
      ((∃ r, predict [("ndvi", ModelRun.raiseE "boom")] "ndvi" = .ok r ∧
          en = .pred (modelName "ndvi") r.predicted_class r.confidence r.probabilities) ∨
       (∃ msg, predict [("ndvi", ModelRun.raiseE "boom")] "ndvi" = .fail msg ∧
          en = .err (modelName "ndvi") msg)) :=
  (compare_entries_per_loaded [("ndvi", ModelRun.raiseE "boom")]).2.1 "ndvi" (by decide)

/-- C5 counterexample: with no model loaded, the registry variant rgb gets no
    entry at all in the comparison result, although the claim requires a
    per-variant entry for every registry variant. -/
theorem compare_entries_counterexample :
    "rgb" ∈ MODEL_CONFIG.map Prod.fst ∧
    (∀ en : CmpEntry, ("rgb", en) ∉ (compare_all []).models) := by
  constructor
  · decide
  · intro en h
    simp [compare_all, cmpResults, cmpPredictions, mostCommon1, counterItems,
      firstOccs] at h

/-- `np.mean` of channel samples stays within the samples' range `[0, 255]`. -/
theorem pxMean_bounds (cs : List ℚ) (h : ∀ v ∈ cs, 0 ≤ v ∧ v ≤ 255) :
    0 ≤ pxMean cs ∧ pxMean cs ≤ 255 := by
  unfold pxMean
  rcases cs with _ | ⟨c, cs2⟩
  · norm_num
  · have hlen : (0 : ℚ) < (((c :: cs2).length : ℕ) : ℚ) := by
      have : 0 < (c :: cs2).length := Nat.succ_pos _
      exact_mod_cast this
    constructor
    · apply div_nonneg
      · apply List.sum_nonneg
        intro x hx
        exact (h x hx).1
      · exact le_of_lt hlen
    · rw [div_le_iff₀ hlen]
      calc (c :: cs2).sum ≤ (c :: cs2).length • (255 : ℚ) :=
            List.sum_le_card_nsmul _ _ (fun x hx => (h x hx).2)
        _ = ((c :: cs2).length : ℚ) * 255 := nsmul_eq_mul _ _
        _ = 255 * ((c :: cs2).length : ℚ) := mul_comm _ _

/-- Membership in the flattening of a pixelwise-transformed 3-D array. -/
theorem mem_flatten_color_map (px : List (List (List ℚ))) (g : List ℚ → List ℚ) (v : ℚ) :
    v ∈ flattenImg (.color (px.map (fun row => row.map g))) ↔
    ∃ cs, (∃ row ∈ px, cs ∈ row) ∧ v ∈ g cs := by
  simp only [flattenImg, List.mem_flatten, List.mem_map]
  constructor
  · rintro ⟨chs, ⟨row2, ⟨row, hrow, rfl⟩, hchs⟩, hv⟩
    rcases List.mem_map.mp hchs with ⟨cs, hcs, rfl⟩
    exact ⟨cs, ⟨row, hrow, hcs⟩, hv⟩
  · rintro ⟨cs, ⟨row, hrow, hcs⟩, hv⟩
    exact ⟨g cs, ⟨row.map g, ⟨row, hrow, rfl⟩, List.mem_map_of_mem g hcs⟩, hv⟩

/-- Membership in the flattening of a samplewise-expanded 2-D array. -/
theorem mem_flatten_gray_map (px : List (List ℚ)) (g : ℚ → List ℚ) (v : ℚ) :
    v ∈ flattenImg (.color (px.map (fun row => row.map g))) ↔
    ∃ w, (∃ row ∈ px, w ∈ row) ∧ v ∈ g w := by
  simp only [flattenImg, List.mem_flatten, List.mem_map]
  constructor
  · rintro ⟨chs, ⟨row2, ⟨row, hrow, rfl⟩, hchs⟩, hv⟩
    rcases List.mem_map.mp hchs with ⟨w, hw, rfl⟩
    exact ⟨w, ⟨row, hrow, hw⟩, hv⟩
  · rintro ⟨w, ⟨row, hrow, hw⟩, hv⟩
    exact ⟨g w, ⟨row.map g, ⟨row, hrow, rfl⟩, List.mem_map_of_mem g hw⟩, hv⟩

/-- Membership in the flattening of a 2-D array. -/
theorem mem_flattenImg_gray (px : List (List ℚ)) (v : ℚ) :
    v ∈ flattenImg (.gray px) ↔ ∃ row ∈ px, v ∈ row := by
  simp [flattenImg, List.mem_flatten]

/-- Membership in the flattening of a 3-D array. -/
theorem mem_flattenImg_color (px : List (List (List ℚ))) (v : ℚ) :
    v ∈ flattenImg (.color px) ↔ ∃ row ∈ px, ∃ cs ∈ row, v ∈ cs := by
  simp only [flattenImg, List.mem_flatten]
  constructor
  · rintro ⟨cs, ⟨row, hrow, hcs⟩, hv⟩
    exact ⟨row, hrow, cs, hcs, hv⟩
  · rintro ⟨row, hrow, cs, hcs, hv⟩
    exact ⟨cs, ⟨row, hrow, hcs⟩, hv⟩

/-- Channel adaptation keeps all samples in the input range `[0, 255]`:
    every branch copies samples, drops samples, or inserts channel means. -/
theorem channelAdapt_bounds (key : String) (img : RawImage)
    (h : ∀ v ∈ flattenImg img, 0 ≤ v ∧ v ≤ 255) :
    ∀ v ∈ flattenImg (channelAdapt key img), 0 ≤ v ∧ v ≤ 255 := by
  intro v hv
  cases img with
  | gray px =>
    unfold channelAdapt at hv
    split_ifs at hv
    · rcases (mem_flatten_gray_map px _ v).mp hv with ⟨w, hwmem, hvm⟩
      have hb := h w ((mem_flattenImg_gray px w).mpr hwmem)
      simp at hvm
      rw [hvm]
      exact hb
    · rcases (mem_flatten_gray_map px _ v).mp hv with ⟨w, hwmem, hvm⟩
      have hb := h w ((mem_flattenImg_gray px w).mpr hwmem)
      simp at hvm
      rw [hvm]
      exact hb
    · rcases (mem_flatten_gray_map px _ v).mp hv with ⟨w, hwmem, hvm⟩
      have hb := h w ((mem_flattenImg_gray px w).mpr hwmem)
      simp at hvm
      rw [hvm]
      exact hb
    · exact h v hv
  | color px =>
    unfold channelAdapt at hv
    split_ifs at hv
    · rcases (mem_flatten_color_map px _ v).mp hv with ⟨cs, ⟨row, hrow, hcs⟩, hvm⟩
      have hcsb : ∀ w ∈ cs, 0 ≤ w ∧ w ≤ 255 := fun w hw =>
        h w ((mem_flattenImg_color px w).mpr ⟨row, hrow, cs, hcs, hw⟩)
      simp at hvm
      rw [hvm]
      exact pxMean_bounds cs hcsb
    · rcases (mem_flatten_color_map px _ v).mp hv with ⟨cs, ⟨row, hrow, hcs⟩, hvm⟩
      have hcsb : ∀ w ∈ cs, 0 ≤ w ∧ w ≤ 255 := fun w hw =>
        h w ((mem_flattenImg_color px w).mpr ⟨row, hrow, cs, hcs, hw⟩)
      have hvcs : v ∈ cs := by
        split_ifs at hvm
        · exact List.take_subset 3 cs hvm
        · simp only [List.mem_append] at hvm
          rcases hvm with (hm | hm) | hm <;> exact hm
        · exact hvm
      exact hcsb v hvcs
    · rcases (mem_flatten_color_map px _ v).mp hv with ⟨cs, ⟨row, hrow, hcs⟩, hvm⟩
      have hcsb : ∀ w ∈ cs, 0 ≤ w ∧ w ≤ 255 := fun w hw =>
        h w ((mem_flattenImg_color px w).mpr ⟨row, hrow, cs, hcs, hw⟩)
      split_ifs at hvm
      · rcases List.mem_append.mp hvm with hm | hm
        · exact hcsb v hm
        · simp at hm
          rw [hm]
          exact pxMean_bounds cs hcsb
      · simp only [List.mem_append] at hvm
        rcases hvm with ((hm | hm) | hm) | hm <;> exact hcsb v hm
      · exact hcsb v hvm
    · exact h v hv

/-- Flattening commutes with the samplewise map. -/
theorem flatten_mapImg (f : ℚ → ℚ) (img : RawImage) :
    flattenImg (mapImg f img) = (flattenImg img).map f := by
  cases img with
  | gray px =>
    simp [flattenImg, mapImg, List.map_flatten]
  | color px =>
    simp [flattenImg, mapImg, List.map_flatten, List.map_map]

/-- Every sample is bounded by `listMax`. -/
theorem le_listMax (l : List ℚ) (v : ℚ) (hv : v ∈ l) : v ≤ listMax l := by
  cases l with
  | nil => simp at hv
  | cons x xs =>
    rcases List.mem_cons.mp hv with rfl | hv'
    · exact le_foldl_max xs v
    · exact mem_le_foldl_max xs x v hv'

/-- C2 (amended): for an image whose samples lie in `[0, 255]` (8-bit data),
    every sample of the preprocessed tensor lies in `[0, 1]`; and the
    normalization divides all samples by 255 exactly when some sample of the
    channel-adapted array exceeds 1 (`img_array.max() > 1`). -/
theorem preprocess_range (key : String) (img : RawImage)
    (h : ∀ v ∈ flattenImg img, 0 ≤ v ∧ v ≤ 255) :
    (∀ t ∈ preprocess_image key img, ∀ v ∈ flattenImg t, 0 ≤ v ∧ v ≤ 1) ∧
    (1 < listMax (flattenImg (channelAdapt key img)) ↔
      ∃ v ∈ flattenImg (channelAdapt key img), 1 < v) ∧
    (1 < listMax (flattenImg (channelAdapt key img)) →
      normalizeImg (channelAdapt key img)
        = mapImg (fun v => v / 255) (channelAdapt key img)) ∧
    (¬ 1 < listMax (flattenImg (channelAdapt key img)) →
      normalizeImg (channelAdapt key img) = channelAdapt key img) := by
  have hA := channelAdapt_bounds key img h
  refine ⟨?_, listMax_lt_iff _ 1 (by norm_num), ?_, ?_⟩
  · intro t ht v hv
    have hts : t = normalizeImg (channelAdapt key img) := by
      simpa [preprocess_image] using ht
    subst hts
    by_cases hmax : 1 < listMax (flattenImg (channelAdapt key img))
    · rw [show normalizeImg (channelAdapt key img)
          = mapImg (fun w => w / 255) (channelAdapt key img) from
            if_pos hmax] at hv
      rw [flatten_mapImg] at hv
      rcases List.mem_map.mp hv with ⟨w, hw, rfl⟩
      rcases hA w hw with ⟨hw0, hw255⟩
      constructor
      · positivity
      · rw [div_le_one (by norm_num : (0:ℚ) < 255)]
        exact hw255
    · rw [show normalizeImg (channelAdapt key img) = channelAdapt key img from
          if_neg hmax] at hv
      rcases hA v hv with ⟨hv0, _⟩
      exact ⟨hv0, le_trans (le_listMax _ v hv) (not_lt.mp hmax)⟩
  · intro hmax
    exact if_pos hmax
  · intro hmax
    exact if_neg hmax

/-- Witness for C2 (amended) at a concrete 8-bit grayscale image and the rgb
    variant. -/
theorem preprocess_range_witness :
    (∀ t ∈ preprocess_image "rgb" (RawImage.gray [[(51 : ℚ), 204]]),
      ∀ v ∈ flattenImg t, 0 ≤ v ∧ v ≤ 1) ∧
    (1 < listMax (flattenImg (channelAdapt "rgb" (RawImage.gray [[(51 : ℚ), 204]]))) ↔
      ∃ v ∈ flattenImg (channelAdapt "rgb" (RawImage.gray [[(51 : ℚ), 204]])), 1 < v) ∧
    (1 < listMax (flattenImg (channelAdapt "rgb" (RawImage.gray [[(51 : ℚ), 204]]))) →
      normalizeImg (channelAdapt "rgb" (RawImage.gray [[(51 : ℚ), 204]]))
        = mapImg (fun v => v / 255) (channelAdapt "rgb" (RawImage.gray [[(51 : ℚ), 204]]))) ∧
    (¬ 1 < listMax (flattenImg (channelAdapt "rgb" (RawImage.gray [[(51 : ℚ), 204]]))) →
      normalizeImg (channelAdapt "rgb" (RawImage.gray [[(51 : ℚ), 204]]))
        = channelAdapt "rgb" (RawImage.gray [[(51 : ℚ), 204]])) :=
  preprocess_range "rgb" (RawImage.gray [[(51 : ℚ), 204]])
    (by
      intro v hv
      simp [flattenImg] at hv
      rcases hv with rfl | rfl <;> norm_num)

/-- C2 counterexample: a 16-bit sample of value 510 (legal in the TIFF-family
    inputs the service accepts) is mapped to 2 by the preprocessor, outside
    `[0, 1]`, because the code divides by 255 regardless of the actual
    maximum.  This refutes the claim as stated for every input image. -/
theorem preprocess_range_counterexample :
    RawImage.color [[[(2 : ℚ), 2, 2]]]
      ∈ preprocess_image "rgb" (RawImage.gray [[(510 : ℚ)]]) ∧
    (2 : ℚ) ∈ flattenImg (RawImage.color [[[(2 : ℚ), 2, 2]]]) ∧
    ¬ ((2 : ℚ) ≤ 1) := by
  refine ⟨?_, by norm_num [flattenImg], by norm_num⟩
  have h1 : channelAdapt "rgb" (RawImage.gray [[(510 : ℚ)]])
      = RawImage.color [[[(510 : ℚ), 510, 510]]] := by
    decide
  have h2 : normalizeImg (RawImage.color [[[(510 : ℚ), 510, 510]]])
      = RawImage.color [[[(2 : ℚ), 2, 2]]] := by
    norm_num [normalizeImg, flattenImg, listMax, mapImg]
  simp [preprocess_image, h1, h2]

/-- C3: the channel-adaptation chain has no branch for a 2-channel
    (luminance + alpha) source with the rgb variant: the array passes through
    unchanged and the preprocessor returns a 2-channel tensor — no error is
    raised — although the registry declares 3 channels for rgb. -/
theorem channel_fallthrough_silent :
    preprocess_image "rgb" (RawImage.color [[[(7 : ℚ), 9]]])
      = [RawImage.color [[[(7 : ℚ)/255, 9/255]]]] ∧
    pixelChannelCounts (RawImage.color [[[(7 : ℚ)/255, 9/255]]]) = [2] ∧
    (MODEL_CONFIG.lookup "rgb").map ModelConfig.channels = some 3 ∧
    (2 : Nat) ≠ 3 := by
  refine ⟨?_, by norm_num [pixelChannelCounts], by decide, by decide⟩
  have h1 : channelAdapt "rgb" (RawImage.color [[[(7 : ℚ), 9]]])
      = RawImage.color [[[(7 : ℚ), 9]]] := by
    decide
  have h2 : normalizeImg (RawImage.color [[[(7 : ℚ), 9]]])
      = RawImage.color [[[(7 : ℚ)/255, 9/255]]] := by
    norm_num [normalizeImg, flattenImg, listMax, mapImg]
  simp [preprocess_image, h1, h2]

/-- On non-negative values Python's `int()` truncation is the floor. -/
theorem pyInt_eq_floor (q : ℚ) (h : 0 ≤ q) : pyInt q = ⌊q⌋ :=
  if_neg (not_lt.mpr h)

/-- Truncation of a value in `[0, 255]` lies in `[0, 255]`. -/
theorem pyInt_bounds (q : ℚ) (h0 : 0 ≤ q) (h255 : q ≤ 255) :
    0 ≤ pyInt q ∧ pyInt q ≤ 255 := by
  rw [pyInt_eq_floor q h0]
  constructor
  · exact Int.le_floor.mpr (by exact_mod_cast h0)
  · calc ⌊q⌋ ≤ ⌊(255 : ℚ)⌋ := Int.floor_le_floor h255
      _ = 255 := by norm_num

/-- C7: the heatmap colour ramp: for `v < 0.5` the colour is
    `(0, 510v, 255 − 510v)` and for `v ≥ 0.5` it is
    `(510(v − 0.5), 255 − 510(v − 0.5), 0)`, each channel truncated to an
    integer and lying in `[0, 255]`; intensity 0 gives blue `(0,0,255)`,
    intensity 0.5 gives green `(0,255,0)` through the `v ≥ 0.5` branch, and
    intensity 1 gives red `(255,0,0)`. -/
theorem colorize_ramp (v : ℚ) (h0 : 0 ≤ v) (h1 : v ≤ 1) :
    (v < 1/2 → colorize v = (0, pyInt (510 * v), pyInt (255 - 510 * v))) ∧
    (1/2 ≤ v → colorize v
      = (pyInt (510 * (v - 1/2)), pyInt (255 - 510 * (v - 1/2)), 0)) ∧
    (0 ≤ (colorize v).1 ∧ (colorize v).1 ≤ 255) ∧
    (0 ≤ (colorize v).2.1 ∧ (colorize v).2.1 ≤ 255) ∧
    (0 ≤ (colorize v).2.2 ∧ (colorize v).2.2 ≤ 255) ∧
    colorize 0 = (0, 0, 255) ∧
    (¬ ((1 : ℚ)/2 < 1/2) ∧ colorize (1/2) = (0, 255, 0)) ∧
    colorize 1 = (255, 0, 0) := by
  have hz : colorize 0 = (0, 0, 255) := by
    norm_num [colorize, pyInt]
  have hhalf : colorize (1/2) = (0, 255, 0) := by
    norm_num [colorize, pyInt]
  have hone : colorize 1 = (255, 0, 0) := by
    norm_num [colorize, pyInt]
  by_cases hv : v < 1/2
  · have hc : colorize v = (0, pyInt (v * 510), pyInt (255 - v * 510)) := by
      unfold colorize
      rw [if_pos hv]
    have hb2 := pyInt_bounds (v * 510) (by positivity) (by linarith)
    have hb3 := pyInt_bounds (255 - v * 510) (by linarith) (by nlinarith)
    refine ⟨?_, ?_, ?_, ?_, ?_, hz, ⟨by norm_num, hhalf⟩, hone⟩
    · intro _
      rw [hc, mul_comm 510 v]
    · intro hle
      exact absurd hv (not_lt.mpr hle)
    · rw [hc]
      norm_num
    · rw [hc]
      exact hb2
    · rw [hc]
      exact hb3
  · have hle : 1/2 ≤ v := not_lt.mp hv
    have hc : colorize v
        = (pyInt ((v - 1/2) * 510), pyInt (255 - (v - 1/2) * 510), 0) := by
      unfold colorize
      rw [if_neg hv]
    have hb1 := pyInt_bounds ((v - 1/2) * 510) (by nlinarith) (by nlinarith)
    have hb2 := pyInt_bounds (255 - (v - 1/2) * 510) (by nlinarith) (by nlinarith)
    refine ⟨?_, ?_, ?_, ?_, ?_, hz, ⟨by norm_num, hhalf⟩, hone⟩
    · intro hlt
      exact absurd hlt hv
    · intro _
      rw [hc, mul_comm 510 (v - 1/2)]
    · rw [hc]
      exact hb1
    · rw [hc]
      exact hb2
    · rw [hc]
      norm_num

/-- Witness for C7 in the lower branch at intensity 1/4. -/
theorem colorize_ramp_witness :
    colorize (1/4) = (0, pyInt (510 * (1/4)), pyInt (255 - 510 * (1/4))) :=
  (colorize_ramp (1/4) (by norm_num) (by norm_num)).1 (by norm_num)

/-- C8 (amended): the blended overlay channel is the truncation (floor) of
    `0.5·heatmap + 0.5·original`, i.e. `⌊(h + o)/2⌋`, and lies in `[0, 255]`
    for 8-bit inputs; `np.uint8` truncates rather than rounds. -/
theorem blend_truncates (h o : ℕ) (hh : h ≤ 255) (ho : o ≤ 255) :
    blend_channel h o = ⌊((h : ℚ) + o) / 2⌋ ∧
    0 ≤ blend_channel (h : ℚ) (o : ℚ) ∧ blend_channel (h : ℚ) (o : ℚ) ≤ 255 := by
  have hnn : (0 : ℚ) ≤ 1/2 * h + 1/2 * o := by positivity
  have heq : (1 : ℚ)/2 * h + 1/2 * o = ((h : ℚ) + o) / 2 := by ring
  have hh2 : ((h : ℚ)) ≤ 255 := by exact_mod_cast hh
  have ho2 : ((o : ℚ)) ≤ 255 := by exact_mod_cast ho
  have hle : ((h : ℚ) + o) / 2 ≤ 255 := by linarith
  have hfl : 0 ≤ ⌊((h : ℚ) + o) / 2⌋ := Int.le_floor.mpr (by
    rw [← heq]
    exact_mod_cast hnn)
  have hfu : ⌊((h : ℚ) + o) / 2⌋ ≤ 255 := by
    calc ⌊((h : ℚ) + o) / 2⌋ ≤ ⌊(255 : ℚ)⌋ := Int.floor_le_floor hle
      _ = 255 := by norm_num
  have hmain : blend_channel (h : ℚ) (o : ℚ) = ⌊((h : ℚ) + o) / 2⌋ := by
    unfold blend_channel
    rw [pyInt_eq_floor _ hnn, heq]
    exact Int.emod_eq_of_lt hfl (by omega)
  exact ⟨hmain, hmain ▸ hfl, hmain ▸ hfu⟩

/-- Witness for C8 (amended) at heatmap 10, original 21. -/
theorem blend_truncates_witness :
    blend_channel ((10 : ℕ) : ℚ) ((21 : ℕ) : ℚ) = ⌊(((10 : ℕ) : ℚ) + ((21 : ℕ) : ℚ)) / 2⌋ ∧
    0 ≤ blend_channel ((10 : ℕ) : ℚ) ((21 : ℕ) : ℚ) ∧
    blend_channel ((10 : ℕ) : ℚ) ((21 : ℕ) : ℚ) ≤ 255 :=
  blend_truncates 10 21 (by norm_num) (by norm_num)

/-- C8 counterexample: at heatmap 255 and original 0 the code computes
    `np.uint8(127.5) = 127`, while the claimed formula rounds to 128. -/
theorem blend_round_counterexample :
    blend_channel 255 0 = 127 ∧ specBlend 255 0 = 128 ∧
    blend_channel 255 0 ≠ specBlend 255 0 := by
  have h1 : blend_channel 255 0 = 127 := by
    have : (1 : ℚ)/2 * 255 + 1/2 * 0 = 255/2 := by ring
    unfold blend_channel
    rw [this]
    norm_num [pyInt]
  have h2 : specBlend 255 0 = 128 := by
    have : (1 : ℚ)/2 * 255 + 1/2 * 0 = 255/2 := by ring
    unfold specBlend
    rw [this]
    norm_num [roundHalfEven, Int.fract]
  exact ⟨h1, h2, by rw [h1, h2]; decide⟩

/-- The change-detection walk equals the filter over explicit adjacent
    pairs. -/
theorem detectChangesAux_eq (x : SeriesEntry) (xs : List SeriesEntry) :
    detectChangesAux x xs = adjacentChangeSpec (x :: xs) := by
  induction xs generalizing x with
  | nil => rfl
  | cons y ys ih =>
    have hstep : detectChangesAux x (y :: ys)
        = (if x.predicted_class ≠ y.predicted_class
           then [changeEvent x y] else []) ++ detectChangesAux y ys := rfl
    have hspec : adjacentChangeSpec (x :: y :: ys)
        = (if x.predicted_class ≠ y.predicted_class
           then [changeEvent x y] else []) ++ adjacentChangeSpec (y :: ys) := by
      unfold adjacentChangeSpec
      simp only [List.tail_cons, List.zip_cons_cons, List.filterMap_cons]
      by_cases hxy : x.predicted_class ≠ y.predicted_class
      · rw [if_pos hxy, if_pos hxy]
        rfl
      · rw [if_neg hxy, if_neg hxy]
        rfl
    rw [hstep, hspec, ih y]

/-- Helper: elements of the per-image loop when every file is valid and every
    prediction succeeds, over `enumFrom`-style indexing. -/
theorem seriesResults_two (fn1 fn2 : String) (r1 r2 : PredictionOk)
    (dates : List String)
    (h1 : fn1 ≠ "") (h2 : allowed_file fn1 = true)
    (h3 : fn2 ≠ "") (h4 : allowed_file fn2 = true) :
    seriesResults [(fn1, .ok r1), (fn2, .ok r2)] dates
      = [⟨0, dateLabel dates 0, r1.predicted_class, r1.confidence, r1.probabilities⟩,
         ⟨1, dateLabel dates 1, r2.predicted_class, r2.confidence, r2.probabilities⟩] := by
  unfold seriesResults
  simp [List.enum, List.enumFrom, h1, h2, h3, h4]

/-- C9: `analyze_series` emits a change event exactly for each adjacent pair
    of results whose predicted labels differ under strict string inequality
    (confidence is never compared), each event carrying both date labels,
    both classes and both confidences; in particular two valid, successfully
    classified images with differing labels yield exactly one event
    referencing both (supplied or synthesized) date labels. -/
theorem series_change_events :
    (∀ l : List SeriesEntry, detectChanges l = adjacentChangeSpec l) ∧
    (∀ (fn1 fn2 : String) (r1 r2 : PredictionOk) (dates : List String),
      fn1 ≠ "" → allowed_file fn1 = true →
      fn2 ≠ "" → allowed_file fn2 = true →
      r1.predicted_class ≠ r2.predicted_class →
      detectChanges (seriesResults [(fn1, .ok r1), (fn2, .ok r2)] dates)
        = [⟨dateLabel dates 0, dateLabel dates 1, r1.predicted_class,
            r2.predicted_class, r1.confidence, r2.confidence⟩]) := by
  constructor
  · intro l
    cases l with
    | nil => rfl
    | cons x xs => exact detectChangesAux_eq x xs
  · intro fn1 fn2 r1 r2 dates h1 h2 h3 h4 hdiff
    rw [seriesResults_two fn1 fn2 r1 r2 dates h1 h2 h3 h4]
    simp [detectChanges, detectChangesAux, hdiff, changeEvent]

/-- Witness for C9: two valid images with differing labels and one supplied
    date label produce one change event with the supplied and the synthesized
    date. -/
theorem series_change_events_witness :
    detectChanges (seriesResults
        [("a.png", .ok ⟨"Forest", 90, [], "RGB Model"⟩),
         ("b.tif", .ok ⟨"River", 80, [], "RGB Model"⟩)] ["2020-01-01"])
      = [⟨"2020-01-01", "T2", "Forest", "River", 90, 80⟩] := by
  have h := (series_change_events).2 "a.png" "b.tif"
    ⟨"Forest", 90, [], "RGB Model"⟩ ⟨"River", 80, [], "RGB Model"⟩
    ["2020-01-01"] (by decide) (by decide) (by decide) (by decide) (by decide)
  rw [h]
  have hd0 : dateLabel ["2020-01-01"] 0 = "2020-01-01" := by decide
  have hd1 : dateLabel ["2020-01-01"] 1 = "T2" := by decide
  rw [hd0, hd1]
